import Mathlib

set_option linter.unusedVariables false

/-!
Verification of the `ez_fs` library (src/dir.rs, src/file.rs) against its
natural-language specification.

The embedding is shallow:

* The platform filesystem seen by the directory code is a frozen snapshot,
  modelled by the inductive `EzFs.Fs`: a node is a regular file (with
  `Option Nat` standing for "EzFile::open succeeds and yields this metadata
  snapshot" / "open fails"), a directory carrying
  `Option (List (String × Fs))` (the result of `fs::read_dir`: `none` means
  listing the children fails as a whole, `some l` is the children in
  platform enumeration order), an entry of undeterminable or unsupported
  type (`bad`, covering `file_type()` errors, devices, non-UTF-8 paths and
  per-entry iterator errors), or a symbolic link `link` carrying the
  listing it points at (never inspected by the code, which rejects links).

* `EzDir` mirrors `struct EzDir { path, entries: Option<Vec<EzEntry>> }`.
  Since `cache` re-reads `fs::read_dir(&self.path)`, the model node also
  carries the snapshot listing found at its path, so that the scan can be
  re-run; `EzEntry` mirrors `enum EzEntry { File(Box<EzFile>), Dir(EzDir) }`.

* Fallible Rust operations become `Option`/`Except` valued functions.
  A Rust panic (the `unwrap` in `EzDir::cache`) is modelled as `none`.

* `usize` is 64-bit: `USIZE_MAX = 2^64 - 1`.

The file-handle side (src/file.rs) is modelled separately: the platform
state is a map from paths to file data (content bytes, a metadata value,
and whether read-mode/write-mode opens succeed), and `EzFile` carries the
wrapper's path, current handle mode, cursor position and the metadata
snapshot taken when the handle was opened or created.
-/

namespace EzFs

/-- Snapshot of the platform filesystem below one directory, as observed by
the directory code. See the module comment for the reading of each case. -/
inductive Fs where
  | file (openRes : Option Nat)
  | dir (listing : Option (List (String × Fs)))
  | bad
  | link (target : Option (List (String × Fs)))

/-- Handle mode of an open file: `File::open` gives read-only,
`File::create` gives write-only. -/
inductive FMode where
  | read
  | write
deriving DecidableEq

/-- Model of `struct EzFile { path, handle, metadata }` (src/file.rs).
The open OS handle is represented by its mode and cursor position; the
handle's content lives in the platform state, keyed by `path`.
`metadata` is the snapshot taken when the handle was opened/created. -/
structure EzFile where
  path : String
  mode : FMode
  pos : Nat
  metadata : Nat
deriving DecidableEq

mutual

/-- Model of `struct EzDir { path: String, entries: Option<Vec<EzEntry>> }`
(src/dir.rs). `listing` is the frozen `fs::read_dir` result at `path`,
carried so that `cache` can (re-)scan. -/
inductive EzDir where
  | mk (path : String) (listing : Option (List (String × Fs))) (entries : Option (List EzEntry))

/-- Model of `enum EzEntry { File(Box<EzFile>), Dir(EzDir) }`. -/
inductive EzEntry where
  | file (f : EzFile)
  | dir (d : EzDir)

end

/-- Rust `DirEntry::path()`: the base path joined with the child's file name. -/
def childPath (p nm : String) : String := p ++ "/" ++ nm

/-- The `impl TryFrom<fs::DirEntry> for EzEntry` (src/dir.rs lines 252-274),
composed with the per-entry `Result` of the `read_dir` iterator:
a regular file is opened read-only (`EzFile::open`, metadata snapshot at
open time) and kept if that succeeds; a directory child becomes
`EzDir::new(path, false)` (entries not scanned); everything else —
open failure, type-query failure, unsupported type such as a symlink —
yields `none` and is dropped by the caller's `filter_map`. -/
def classify (p : String) : String × Fs → Option EzEntry
  | (nm, .file (some meta)) => some (.file ⟨childPath p nm, .read, 0, meta⟩)
  | (_, .file none) => none
  | (nm, .dir ols) => some (.dir (.mk (childPath p nm) ols none))
  | (_, .bad) => none
  | (_, .link _) => none

/-- The body of the scan: `read_dir(..).filter_map(|e| e.and_then(EzEntry::try_from).ok()).collect()`. -/
def scanL (p : String) (l : List (String × Fs)) : List EzEntry := l.filterMap (classify p)

/-- Rust `EzDir::cache` (src/dir.rs lines 88-92). `fs::read_dir(&self.path)` is
`unwrap`ped, so a failing listing is a panic, modelled as `none`; otherwise
`entries` is replaced wholesale with the scan of the current listing. -/
def EzDir.cache : EzDir → Option EzDir
  | .mk _ none _ => none
  | .mk p (some l) _ => some (.mk p (some l) (some (scanL p l)))

/-- Rust `EzDir::path`. -/
def EzDir.path : EzDir → String
  | .mk p _ _ => p

/-- The `entries` field. -/
def EzDir.entries : EzDir → Option (List EzEntry)
  | .mk _ _ e => e

/-- The snapshot listing at this node's path. -/
def EzDir.listing : EzDir → Option (List (String × Fs))
  | .mk _ ls _ => ls

/-- Rust `EzDir::is_cached`: `self.entries.is_some()`. -/
def EzDir.isCached (d : EzDir) : Bool := d.entries.isSome

/-- Outcome of `EzDir::new`: either the explicit "Path is not a directory"
error (the `io_err!` at src/dir.rs line 42) or a propagated I/O error from
`fs::read_dir(path)?`. -/
inductive NewErr where
  | notADirectory
  | listFail
deriving DecidableEq

/-- Rust `Path::is_dir` for the object found at the constructor's path (a missing
path, a regular file, or an unsupported entry is not a directory). -/
def Fs.isDir : Fs → Bool
  | .dir _ => true
  | _ => false

/-- Rust `EzDir::new(path, cache)` (src/dir.rs lines 30-44), with `tgt` the
filesystem object at `path`. If `tgt` is not a directory the construction
fails with the "not a directory" error. Otherwise, with `cache = true` the
children are listed (`fs::read_dir(path)?` propagates a listing failure)
and scanned once; with `cache = false` the node is returned unscanned. -/
def EzDir.new (p : String) (tgt : Fs) (cacheFlag : Bool) : Except NewErr EzDir :=
  match tgt with
  | .dir ols =>
    if cacheFlag then
      match ols with
      | none => .error .listFail
      | some l => .ok (.mk p (some l) (some (scanL p l)))
    else .ok (.mk p ols none)
  | _ => .error .notADirectory

/-- Rust `EzDir::get`: `self.entries.as_ref()?.get(idx)`. -/
def EzDir.get (d : EzDir) (idx : Nat) : Option EzEntry :=
  match d with
  | .mk _ _ none => none
  | .mk _ _ (some es) => es.get? idx

/-- Rust `EzDir::get_mut`: same result as `get` (the model has no references). -/
def EzDir.getMut (d : EzDir) (idx : Nat) : Option EzEntry :=
  match d with
  | .mk _ _ none => none
  | .mk _ _ (some es) => es.get? idx

/-- Rust `EzDir::len`: `self.entries.as_ref().map(Vec::len)`. -/
def EzDir.len (d : EzDir) : Option Nat :=
  match d with
  | .mk _ _ none => none
  | .mk _ _ (some es) => some es.length

/-- Rust `EzDir::is_empty`: `self.entries.as_ref().map(Vec::is_empty)`. -/
def EzDir.isEmpty (d : EzDir) : Option Bool :=
  match d with
  | .mk _ _ none => none
  | .mk _ _ (some es) => some es.isEmpty

/-- The `impl IntoIterator for EzDir` (consuming): the entries, or an empty
sequence when unscanned. -/
def EzDir.intoIter (d : EzDir) : List EzEntry :=
  match d with
  | .mk _ _ none => []
  | .mk _ _ (some es) => es

/-- The `impl IntoIterator for &EzDir` (`iter`): same element sequence. -/
def EzDir.iterRef (d : EzDir) : List EzEntry :=
  match d with
  | .mk _ _ none => []
  | .mk _ _ (some es) => es

/-- The `impl IntoIterator for &mut EzDir` (`iter_mut`): same element sequence. -/
def EzDir.iterMut (d : EzDir) : List EzEntry :=
  match d with
  | .mk _ _ none => []
  | .mk _ _ (some es) => es

mutual

/-- Weight of a filesystem node, used as the termination measure of `fill`:
only listings reachable through directory children count. Note that the
weight of a symlink ignores its target entirely. -/
def fsW : Fs → Nat
  | .file _ => 2
  | .bad => 2
  | .link _ => 2
  | .dir none => 2
  | .dir (some l) => 2 + listW l

/-- Weight of a listing. -/
def listW : List (String × Fs) → Nat
  | [] => 0
  | (_, e) :: r => fsW e + listW r

end

/-- Weight of an optional listing. -/
def olW : Option (List (String × Fs)) → Nat
  | none => 0
  | some l => listW l

/-- Weight of an entry: directory entries weigh their stored listing. -/
def entryW : EzEntry → Nat
  | .file _ => 1
  | .dir (.mk _ ls _) => 1 + olW ls

/-- Weight of an entry list. -/
def entriesW : List EzEntry → Nat
  | [] => 0
  | e :: r => 1 + entryW e + entriesW r

/-- A scan yields entries no heavier than the listing it scanned
(termination apparatus for `fill`). -/
def scanL_weight : ∀ (p : String) (l : List (String × Fs)), entriesW (scanL p l) ≤ listW l := by
  intro p l
  induction l with
  | nil => simp [scanL, entriesW]
  | cons hd r ih =>
    simp only [scanL] at ih
    obtain ⟨nm, e⟩ := hd
    cases e with
    | file o => cases o with
      | none => simp [scanL, classify, listW, fsW, List.filterMap_cons]; omega
      | some m => simp [scanL, classify, listW, fsW, entriesW, entryW, List.filterMap_cons]; omega
    | bad => simp [scanL, classify, listW, fsW, List.filterMap_cons]; omega
    | link t => simp [scanL, classify, listW, fsW, List.filterMap_cons]; omega
    | dir o => cases o with
      | none => simp [scanL, classify, listW, fsW, entriesW, entryW, olW, List.filterMap_cons]; omega
      | some sl => simp [scanL, classify, listW, fsW, entriesW, entryW, olW, List.filterMap_cons]; omega

/-- A freshly cached node weighs less than the directory entry it came from
(termination apparatus for `fill`). -/
def cache_weight : ∀ {d : EzDir} {p1 : String} {ls1 : Option (List (String × Fs))} {es1 : List EzEntry},
    EzDir.cache d = some (.mk p1 ls1 (some es1)) → entriesW es1 < entryW (.dir d) := by
  intro d p1 ls1 es1 h
  obtain ⟨p, ls, e⟩ := d
  cases ls with
  | none => simp [EzDir.cache] at h
  | some l =>
    simp [EzDir.cache] at h
    obtain ⟨h1, h2, h3⟩ := h
    subst h3
    have := scanL_weight p l
    simp [entryW, olW]
    omega

/-- The value of `usize::MAX` on a 64-bit platform. -/
def USIZE_MAX : Nat := 18446744073709551615

/-- The loop body of the recursive helper `fn fill(dir, curr, max)` inside
`EzDir::walk` (src/dir.rs lines 106-113), acting on a node's entry list:
file entries are left alone; each directory entry `d` is re-cached
(`d.cache()`, whose panic on an unlistable directory propagates as `none`),
and if `curr < max - 1` the freshly cached node is filled recursively at
`curr + 1`. The recursion into the fresh node is written inline on its new
entry list (a node `cache` just produced always has `some` entries; the
`none` branch keeps the node unchanged exactly as iterating `fill` over an
uncached node would). -/
def fillE (es : List EzEntry) (c m : Nat) : Option (List EzEntry) :=
  match es with
  | [] => some []
  | .file f :: r =>
    match fillE r c m with
    | none => none
    | some r' => some (.file f :: r')
  | .dir d :: r =>
    match h1 : EzDir.cache d with
    | none => none
    | some (.mk p1 ls1 none) =>
      match fillE r c m with
      | none => none
      | some r' => some (.dir (.mk p1 ls1 none) :: r')
    | some (.mk p1 ls1 (some es1)) =>
      match (if c < m - 1 then (fillE es1 (c+1) m).map (fun es2 => EzDir.mk p1 ls1 (some es2)) else some (.mk p1 ls1 (some es1))) with
      | none => none
      | some d2 =>
        match fillE r c m with
        | none => none
        | some r' => some (.dir d2 :: r')
termination_by entriesW es
decreasing_by
  all_goals simp only [entriesW]
  all_goals try omega
  all_goals (have hcw := cache_weight h1; omega)

/-- The `fn fill(dir, curr, max)` on a node: iterating `dir.iter_mut()` is a
no-op on an uncached node, otherwise the entry list is processed by `fillE`. -/
def EzDir.fill (d : EzDir) (c m : Nat) : Option EzDir :=
  match d with
  | .mk p ls none => some (.mk p ls none)
  | .mk p ls (some es) =>
    match fillE es c m with
    | none => none
    | some es' => some (.mk p ls (some es'))

/-- Rust `EzDir::walk(depth)` (src/dir.rs lines 105-122): `self.cache()` first
(its panic propagates), then `fill(self, 0, depth)` when `depth > 0`, else
`fill(self, 0, usize::MAX)`. -/
def EzDir.walk (d : EzDir) (depth : Nat) : Option EzDir :=
  match EzDir.cache d with
  | none => none
  | some d1 => if depth > 0 then EzDir.fill d1 0 depth else EzDir.fill d1 0 USIZE_MAX

mutual

/-- The loop of `fn collect(dir, vec)` inside `EzDir::flatten`
(src/dir.rs lines 157-164) over one entry list: files are pushed onto the
accumulator, directory entries are collected recursively. -/
def collectE : List EzEntry → List EzFile → List EzFile
  | [], acc => acc
  | .file f :: r, acc => collectE r (acc ++ [f])
  | .dir d :: r, acc => collectE r (collectN d acc)

/-- The `fn collect(dir, vec)` on a node: iterating a consumed `EzDir` yields
nothing when `entries` is `None`. -/
def collectN : EzDir → List EzFile → List EzFile
  | .mk _ _ none, acc => acc
  | .mk _ _ (some es), acc => collectE es acc

end

/-- Rust `EzDir::flatten` (src/dir.rs lines 156-170): collect into an empty vec. -/
def EzDir.flatten (d : EzDir) : List EzFile := collectN d []

/-- Rust `EzDir::flatten_all` (src/dir.rs lines 183-187): `walk(0)` then
`flatten`; the panic of `walk` propagates. -/
def EzDir.flattenAll (d : EzDir) : Option (List EzFile) :=
  (EzDir.walk d 0).map EzDir.flatten

mutual

/-- Spec-side flatten of a node, written from the spec's words (section 4.5):
an unscanned node contributes zero files, a scanned node contributes its
entries in order. Compared against the code's accumulator-based
`EzDir.flatten` in claim C5. -/
def sFlattenN : EzDir → List EzFile
  | .mk _ _ none => []
  | .mk _ _ (some es) => sFlattenE es

/-- Spec-side flatten of an entry list: pre-order, a file is appended, a
directory contributes its own flattening before later siblings. -/
def sFlattenE : List EzEntry → List EzFile
  | [] => []
  | .file f :: r => f :: sFlattenE r
  | .dir d :: r => sFlattenN d ++ sFlattenE r

end

/-- The entries a node with listing `l` at path `p` ends up with after being
cached and then filled `m` more levels below it (the expected result of
`walk`): with `m = 0` directory children stay unscanned, with `m > 0` a
directory child whose listing is present is cached recursively with budget
`m - 1` (a `none` listing in a position that would be cached makes `walk`
panic, so that branch of this total function is never reached on a
successful walk). -/
def wSpecE (p : String) (l : List (String × Fs)) (m : Nat) : List EzEntry :=
  match l with
  | [] => []
  | (nm, .file (some meta)) :: r => .file ⟨childPath p nm, .read, 0, meta⟩ :: wSpecE p r m
  | (_, .file none) :: r => wSpecE p r m
  | (nm, .dir ols) :: r =>
    .dir (if m = 0 then .mk (childPath p nm) ols none
          else match ols with
               | none => .mk (childPath p nm) none none
               | some sl => .mk (childPath p nm) (some sl) (some (wSpecE (childPath p nm) sl (m-1)))) :: wSpecE p r m
  | (_, .bad) :: r => wSpecE p r m
  | (_, .link _) :: r => wSpecE p r m

/-- Every directory listing that filling `m` levels below a node with
listing `l` would have to read is present (`m ≥ 1`): exactly the condition
under which the walk does not panic. -/
def okToL (l : List (String × Fs)) (m : Nat) : Bool :=
  match l with
  | [] => true
  | (_, .file _) :: r => okToL r m
  | (_, .dir none) :: _ => false
  | (_, .dir (some sl)) :: r => (if 1 < m then okToL sl (m-1) else true) && okToL r m
  | (_, .bad) :: r => okToL r m
  | (_, .link _) :: r => okToL r m

mutual

/-- True iff every directory node at level exactly `j` below `d` that is
reachable through cached entries is itself cached (`j = 0` is `d` itself;
nodes below an uncached node are unreachable, hence vacuously fine). -/
def levCachedN : EzDir → Nat → Bool
  | .mk _ _ none, 0 => false
  | .mk _ _ (some _), 0 => true
  | .mk _ _ none, _+1 => true
  | .mk _ _ (some es), j+1 => levCachedE es j

/-- Entry-list companion of `levCachedN`. -/
def levCachedE : List EzEntry → Nat → Bool
  | [], _ => true
  | .file _ :: r, j => levCachedE r j
  | .dir d :: r, j => levCachedN d j && levCachedE r j

end

mutual

/-- True iff every directory node at level exactly `j` below `d` that is
reachable through cached entries is uncached (`is_cached() = false`). -/
def levUncachedN : EzDir → Nat → Bool
  | .mk _ _ none, 0 => true
  | .mk _ _ (some _), 0 => false
  | .mk _ _ none, _+1 => true
  | .mk _ _ (some es), j+1 => levUncachedE es j

/-- Entry-list companion of `levUncachedN`. -/
def levUncachedE : List EzEntry → Nat → Bool
  | [], _ => true
  | .file _ :: r, j => levUncachedE r j
  | .dir d :: r, j => levUncachedN d j && levUncachedE r j

end

/-- The openable files reachable from a node with listing `l` at path `p`
within `k` levels (`k ≥ 1` includes the direct file children; a directory
child is entered with budget `k - 1` when that is still at least 1;
directories whose listing failed contribute nothing). -/
def reachB (p : String) (l : List (String × Fs)) (k : Nat) : List EzFile :=
  match l with
  | [] => []
  | (nm, .file (some meta)) :: r => EzFile.mk (childPath p nm) .read 0 meta :: reachB p r k
  | (_, .file none) :: r => reachB p r k
  | (nm, .dir (some sl)) :: r =>
    (if 1 < k then reachB (childPath p nm) sl (k-1) else []) ++ reachB p r k
  | (_, .dir none) :: r => reachB p r k
  | (_, .bad) :: r => reachB p r k
  | (_, .link _) :: r => reachB p r k

/-- The openable files transitively reachable from a node with listing `l`
at path `p`, at any depth, through directories whose listing is readable
(per-entry drops applied, symlinks not followed). -/
def reachU (p : String) (l : List (String × Fs)) : List EzFile :=
  match l with
  | [] => []
  | (nm, .file (some meta)) :: r => EzFile.mk (childPath p nm) .read 0 meta :: reachU p r
  | (_, .file none) :: r => reachU p r
  | (nm, .dir (some sl)) :: r => reachU (childPath p nm) sl ++ reachU p r
  | (_, .dir none) :: r => reachU p r
  | (_, .bad) :: r => reachU p r
  | (_, .link _) :: r => reachU p r

/-- A chain of nested directories: `chainL (n+1)` is a listing whose single
child `"c"` is a directory holding `chainL n`; `chainL 0` is empty. The
directory at level `n` below a root with listing `chainL n` is the deepest. -/
def chainL : Nat → List (String × Fs)
  | 0 => []
  | n+1 => [("c", .dir (some (chainL n)))]

/-- Like `chainL`, but the innermost listing holds one openable file `"f"`:
with a root listing `fchainL n`, the file sits at level `n + 1`. -/
def fchainL : Nat → List (String × Fs)
  | 0 => [("f", .file (some 0))]
  | n+1 => [("c", .dir (some (fchainL n)))]

mutual

/-- Replace the target of every symlink in a filesystem snapshot by a failed
listing, leaving everything the directory code can classify untouched. -/
def pruneF : Fs → Fs
  | .file o => .file o
  | .bad => .bad
  | .link _ => .link none
  | .dir none => .dir none
  | .dir (some l) => .dir (some (pruneL l))

/-- Listing companion of `pruneF`. -/
def pruneL : List (String × Fs) → List (String × Fs)
  | [] => []
  | (nm, e) :: r => (nm, pruneF e) :: pruneL r

end

/-- Fuel-indexed version of `fillE`: the outer `Option` is `none` when the
fuel is exhausted, the inner `Option` is the panic of `fillE`. One unit of
fuel is consumed per recursive call. -/
def fillFuelE (fuel : Nat) (es : List EzEntry) (c m : Nat) : Option (Option (List EzEntry)) :=
  match fuel, es with
  | 0, _ => none
  | _+1, [] => some (some [])
  | fuel+1, .file f :: r =>
    match fillFuelE fuel r c m with
    | none => none
    | some none => some none
    | some (some r') => some (some (.file f :: r'))
  | fuel+1, .dir d :: r =>
    match EzDir.cache d with
    | none => some none
    | some (.mk p1 ls1 none) =>
      match fillFuelE fuel r c m with
      | none => none
      | some none => some none
      | some (some r') => some (some (.dir (.mk p1 ls1 none) :: r'))
    | some (.mk p1 ls1 (some es1)) =>
      match (if c < m - 1 then (fillFuelE fuel es1 (c+1) m).map (Option.map (fun es2 => EzDir.mk p1 ls1 (some es2))) else some (some (.mk p1 ls1 (some es1)))) with
      | none => none
      | some none => some none
      | some (some d2) =>
        match fillFuelE fuel r c m with
        | none => none
        | some none => some none
        | some (some r') => some (some (.dir d2 :: r'))

/-- Fuel-indexed version of `EzDir.walk`: `some` means the walk finished
(normally or by panic) within the given fuel. -/
def walkFuel (fuel : Nat) (d : EzDir) (depth : Nat) : Option (Option EzDir) :=
  match EzDir.cache d with
  | none => some none
  | some (.mk p ls none) => some (some (.mk p ls none))
  | some (.mk p ls (some es)) =>
    match fillFuelE fuel es 0 (if depth > 0 then depth else USIZE_MAX) with
    | none => none
    | some none => some none
    | some (some es') => some (some (.mk p ls (some es')))

/-- Platform state of one path for the file-handle model: content bytes,
current on-disk metadata, and whether opening read-only (`File::open`) or
write-only (`File::create`) at this path succeeds. -/
structure FData where
  content : List Nat
  meta : Nat
  readOk : Bool
  writeOk : Bool

/-- The platform filesystem for the file-handle model: per-path data. -/
def FsS : Type := String → FData

/-- Replace the content stored at path `p`. -/
def setContent (fs : FsS) (p : String) (c : List Nat) : FsS :=
  fun q => if q = p then { fs q with content := c } else fs q

/-- Rust `EzFile::open(path)` (src/file.rs lines 25-33): open read-only and
snapshot the metadata; fails when the platform refuses a read-only open. -/
def EzFile.openFile (p : String) (fs : FsS) : Option EzFile :=
  if (fs p).readOk then some ⟨p, .read, 0, (fs p).meta⟩ else none

/-- Rust `EzFile::create(path)` (src/file.rs lines 45-53): open write-only
(truncating the content at `path`) and snapshot the metadata. -/
def EzFile.create (p : String) (fs : FsS) : Option (EzFile × FsS) :=
  if (fs p).writeOk then some (⟨p, .write, 0, (fs p).meta⟩, setContent fs p []) else none

/-- Rust `EzFile::to_write` (src/file.rs lines 95-98):
`self.handle = File::create(&self.path)?` — unconditionally reopen the
stored path write-only (truncating) and replace the handle; `path` and
`metadata` are not touched. On failure the wrapper is unchanged. -/
def EzFile.toWrite (f : EzFile) (fs : FsS) : Option (EzFile × FsS) :=
  if (fs f.path).writeOk then some ({ f with mode := .write, pos := 0 }, setContent fs f.path []) else none

/-- Rust `EzFile::to_read` (src/file.rs lines 102-105):
`self.handle = File::open(&self.path)?` — unconditionally reopen the stored
path read-only and replace the handle; `path` and `metadata` untouched. -/
def EzFile.toRead (f : EzFile) (fs : FsS) : Option EzFile :=
  if (fs f.path).readOk then some { f with mode := .read, pos := 0 } else none

/-- The `impl io::Write for EzFile` (src/file.rs lines 115-124), for a whole
buffer (`write_all`): writing on a read-only handle is an OS error; on a
write-only handle the buffer overwrites the content at the cursor
(zero-filling any gap) and the cursor advances. Returns the byte count. -/
def EzFile.write (f : EzFile) (buf : List Nat) (fs : FsS) : Option (EzFile × FsS × Nat) :=
  match f.mode with
  | .read => none
  | .write =>
    let c := (fs f.path).content
    let c' := c.take f.pos ++ List.replicate (f.pos - c.length) 0 ++ buf ++ c.drop (f.pos + buf.length)
    some ({ f with pos := f.pos + buf.length }, setContent fs f.path c', buf.length)

/-- The `impl io::Read for EzFile` iterated to exhaustion (`read_to_end` /
`read_to_string`): an OS error on a write-only handle; on a read-only
handle the content from the cursor onward. -/
def EzFile.readToEnd (f : EzFile) (fs : FsS) : Option (List Nat × EzFile) :=
  match f.mode with
  | .write => none
  | .read =>
    let c := (fs f.path).content
    some (c.drop f.pos, { f with pos := c.length })

/-- The `path` of each entry, in order (files and directory nodes). -/
def entryPaths : List EzEntry → List String
  | [] => []
  | .file f :: r => f.path :: entryPaths r
  | .dir d :: r => EzDir.path d :: entryPaths r

/-- Spec-side list of the children a scan keeps, in platform enumeration
order (spec section 3, cross-entity invariant): exactly the children
classified as a regular file that can be opened, or as a directory; type
failures, open failures, symlinks and other types are dropped. -/
def keptPaths (p : String) : List (String × Fs) → List String
  | [] => []
  | (nm, .file (some _)) :: r => childPath p nm :: keptPaths p r
  | (_, .file none) :: r => keptPaths p r
  | (nm, .dir _) :: r => childPath p nm :: keptPaths p r
  | (_, .bad) :: r => keptPaths p r
  | (_, .link _) :: r => keptPaths p r

/-- True iff every directory entry of the list is itself unscanned. -/
def dirsUnscanned : List EzEntry → Bool
  | [] => true
  | .file _ :: r => dirsUnscanned r
  | .dir (.mk _ _ none) :: r => dirsUnscanned r
  | .dir (.mk _ _ (some _)) :: _ => false

/-! ### Auxiliary lemmas -/

/-- A scan with no filling below is exactly `wSpecE` at budget 0. -/
theorem wSpecE_zero (p : String) (l : List (String × Fs)) : wSpecE p l 0 = scanL p l := by
  induction l with
  | nil => simp [wSpecE, scanL]
  | cons hd r ih =>
    obtain ⟨nm, e⟩ := hd
    cases e with
    | file o => cases o <;> simp [wSpecE, scanL, classify, List.filterMap_cons, ih, scanL]
    | bad => simpa [wSpecE, scanL, classify, List.filterMap_cons] using ih
    | link t => simpa [wSpecE, scanL, classify, List.filterMap_cons] using ih
    | dir o => cases o <;> (simp [wSpecE, scanL, classify, List.filterMap_cons]; simpa [scanL] using ih)

/-- Characterization of the `fill` loop on a freshly scanned entry list:
with `c < m` it succeeds exactly when every listing it has to read is
present (`okToL`), and then produces the expected tree `wSpecE` filled
`m - c` levels below. -/
theorem fillE_scan : ∀ (l : List (String × Fs)) (p : String) (c m : Nat), c < m →
    fillE (scanL p l) c m = if okToL l (m - c) then some (wSpecE p l (m - c)) else none := by
  suffices H : ∀ (n : Nat) (l : List (String × Fs)), listW l ≤ n → ∀ (p : String) (c m : Nat), c < m →
      fillE (scanL p l) c m = if okToL l (m - c) then some (wSpecE p l (m - c)) else none by
    exact fun l p c m h => H (listW l) l le_rfl p c m h
  intro n
  induction n with
  | zero =>
    intro l hW p c m hcm
    match l with
    | [] => simp [scanL, fillE, okToL, wSpecE]
    | (nm, e) :: r =>
      exfalso
      have h2 : 2 ≤ fsW e := by cases e with
        | file o => simp [fsW]
        | bad => simp [fsW]
        | link t => simp [fsW]
        | dir o => cases o <;> simp [fsW]
      simp [listW] at hW
      omega
  | succ n ih =>
    intro l hW p c m hcm
    match l with
    | [] => simp [scanL, fillE, okToL, wSpecE]
    | (nm, .file none) :: r =>
      have hr : listW r ≤ n := by simp [listW, fsW] at hW; omega
      simp [scanL, classify, List.filterMap_cons, okToL, wSpecE]
      rw [show List.filterMap (classify p) r = scanL p r from rfl]
      exact ih r hr p c m hcm
    | (nm, .file (some meta)) :: r =>
      have hr : listW r ≤ n := by simp [listW, fsW] at hW; omega
      simp only [scanL, classify, List.filterMap_cons, okToL, wSpecE]
      rw [show List.filterMap (classify p) r = scanL p r from rfl]
      rw [fillE]
      rw [ih r hr p c m hcm]
      by_cases hok : okToL r (m - c) <;> simp [hok]
    | (nm, .bad) :: r =>
      have hr : listW r ≤ n := by simp [listW, fsW] at hW; omega
      simp [scanL, classify, List.filterMap_cons, okToL, wSpecE]
      rw [show List.filterMap (classify p) r = scanL p r from rfl]
      exact ih r hr p c m hcm
    | (nm, .link t) :: r =>
      have hr : listW r ≤ n := by simp [listW, fsW] at hW; omega
      simp [scanL, classify, List.filterMap_cons, okToL, wSpecE]
      rw [show List.filterMap (classify p) r = scanL p r from rfl]
      exact ih r hr p c m hcm
    | (nm, .dir none) :: r =>
      simp only [scanL, classify, List.filterMap_cons, okToL, wSpecE]
      rw [fillE]
      simp [EzDir.cache, okToL]
    | (nm, .dir (some sl)) :: r =>
      have hr : listW r ≤ n := by simp [listW, fsW] at hW; omega
      have hsl : listW sl ≤ n := by simp [listW, fsW] at hW; omega
      simp only [scanL, classify, List.filterMap_cons]
      rw [fillE]
      simp only [EzDir.cache]
      rw [show List.filterMap (classify p) r = scanL p r from rfl]
      by_cases hrec : c < m - 1
      · have hc1 : c + 1 < m := by omega
        rw [ih sl hsl (childPath p nm) (c+1) m hc1]
        have hm2 : 1 < m - c := by omega
        have hmc : m - (c + 1) = m - c - 1 := by omega
        by_cases hoksl : okToL sl (m - c - 1)
        · simp only [hrec, if_pos, hmc, hoksl, if_true]
          rw [ih r hr p c m hcm]
          by_cases hokr : okToL r (m - c)
          · simp [okToL, hoksl, hokr, hm2, wSpecE, show m - c ≠ 0 by omega, hmc]
          · simp [okToL, hoksl, hokr, hm2, wSpecE, hmc]
        · simp [hrec, hmc, hoksl, okToL, hm2]
      · have hmc1 : m - c = 1 := by omega
        simp only [hrec, if_neg, not_false_iff]
        rw [ih r hr p c m hcm]
        rw [hmc1]
        by_cases hokr : okToL r 1
        · rw [if_pos hokr]
          have h1 : okToL ((nm, Fs.dir (some sl)) :: r) 1 = okToL r 1 := by
            simp [okToL]
          rw [h1, if_pos hokr]
          have h2 : wSpecE p ((nm, Fs.dir (some sl)) :: r) 1 =
              .dir (.mk (childPath p nm) (some sl) (some (wSpecE (childPath p nm) sl 0))) :: wSpecE p r 1 := by
            simp [wSpecE]
          rw [h2, wSpecE_zero]
          try simp [scanL]
        · rw [if_neg hokr]
          have h1 : okToL ((nm, Fs.dir (some sl)) :: r) 1 = okToL r 1 := by
            simp [okToL]
          rw [h1, if_neg hokr]

/-- Full characterization of `EzDir.walk` on a node whose own listing is
readable: writing `M` for the effective budget (`depth`, or `usize::MAX`
when `depth = 0`), the walk succeeds iff every listing it must read is
present, and then the result is the expected tree, independent of the
node's previous `entries`. -/
theorem walk_eq (p : String) (l : List (String × Fs)) (e : Option (List EzEntry)) (depth : Nat) :
    EzDir.walk (.mk p (some l) e) depth =
      (if okToL l (if 0 < depth then depth else USIZE_MAX) then
        some (.mk p (some l) (some (wSpecE p l (if 0 < depth then depth else USIZE_MAX)))) else none) := by
  have hM : (0:Nat) < USIZE_MAX := by simp [USIZE_MAX]
  unfold EzDir.walk
  simp only [EzDir.cache]
  by_cases hd : 0 < depth
  · have : depth > 0 := hd
    simp only [this, if_true, EzDir.fill]
    rw [fillE_scan l p 0 depth hd]
    simp only [Nat.sub_zero, hd, if_true]
    by_cases hok : okToL l depth <;> simp [hok]
  · have hdz : depth = 0 := by omega
    subst hdz
    simp only [gt_iff_lt, lt_irrefl, if_false, EzDir.fill]
    rw [fillE_scan l p 0 USIZE_MAX hM]
    simp only [Nat.sub_zero, lt_irrefl, if_false]
    by_cases hok : okToL l USIZE_MAX <;> simp [hok]

/-- Running `walk` on a node whose own listing cannot be read panics. -/
theorem walk_noListing (p : String) (e : Option (List EzEntry)) (depth : Nat) :
    EzDir.walk (.mk p none e) depth = none := by
  unfold EzDir.walk
  simp [EzDir.cache]

/-- In a successful walk result filled `m` levels below, every directory
level `j < m` below the entry list is fully cached. -/
theorem wSpecE_levCached : ∀ (l : List (String × Fs)) (p : String) (m j : Nat), j < m →
    okToL l m = true → levCachedE (wSpecE p l m) j = true := by
  suffices H : ∀ (n : Nat) (l : List (String × Fs)), listW l ≤ n → ∀ (p : String) (m j : Nat), j < m →
      okToL l m = true → levCachedE (wSpecE p l m) j = true by
    exact fun l p m j h hok => H (listW l) l le_rfl p m j h hok
  intro n
  induction n with
  | zero =>
    intro l hW p m j hjm hok
    match l with
    | [] => simp [wSpecE, levCachedE]
    | (nm, e) :: r =>
      exfalso
      have h2 : 2 ≤ fsW e := by cases e with
        | file o => simp [fsW]
        | bad => simp [fsW]
        | link t => simp [fsW]
        | dir o => cases o <;> simp [fsW]
      simp [listW] at hW
      omega
  | succ n ih =>
    intro l hW p m j hjm hok
    match l with
    | [] => simp [wSpecE, levCachedE]
    | (nm, .file none) :: r =>
      have hr : listW r ≤ n := by simp [listW, fsW] at hW; omega
      simp only [okToL] at hok
      simpa [wSpecE] using ih r hr p m j hjm hok
    | (nm, .file (some meta)) :: r =>
      have hr : listW r ≤ n := by simp [listW, fsW] at hW; omega
      simp only [okToL] at hok
      simpa [wSpecE, levCachedE] using ih r hr p m j hjm hok
    | (nm, .bad) :: r =>
      have hr : listW r ≤ n := by simp [listW, fsW] at hW; omega
      simp only [okToL] at hok
      simpa [wSpecE] using ih r hr p m j hjm hok
    | (nm, .link t) :: r =>
      have hr : listW r ≤ n := by simp [listW, fsW] at hW; omega
      simp only [okToL] at hok
      simpa [wSpecE] using ih r hr p m j hjm hok
    | (nm, .dir none) :: r =>
      simp [okToL] at hok
    | (nm, .dir (some sl)) :: r =>
      have hr : listW r ≤ n := by simp [listW, fsW] at hW; omega
      have hsl : listW sl ≤ n := by simp [listW, fsW] at hW; omega
      simp only [okToL, Bool.and_eq_true] at hok
      obtain ⟨hok1, hok2⟩ := hok
      have hm0 : ¬ (m = 0) := by omega
      simp only [wSpecE, hm0, if_false, levCachedE, Bool.and_eq_true]
      refine ⟨?_, ih r hr p m j hjm hok2⟩
      match j with
      | 0 => simp [levCachedN]
      | j'+1 =>
        have hm2 : 1 < m := by omega
        simp only [hm2, if_true] at hok1
        simp only [levCachedN]
        exact ih sl hsl (childPath p nm) (m-1) j' (by omega) hok1

/-- In a walk result filled `m` levels below, every directory at level
`j ≥ m` below the entry list is unscanned. -/
theorem wSpecE_levUncached : ∀ (l : List (String × Fs)) (p : String) (m j : Nat), m ≤ j →
    levUncachedE (wSpecE p l m) j = true := by
  suffices H : ∀ (n : Nat) (l : List (String × Fs)), listW l ≤ n → ∀ (p : String) (m j : Nat), m ≤ j →
      levUncachedE (wSpecE p l m) j = true by
    exact fun l p m j h => H (listW l) l le_rfl p m j h
  intro n
  induction n with
  | zero =>
    intro l hW p m j hmj
    match l with
    | [] => simp [wSpecE, levUncachedE]
    | (nm, e) :: r =>
      exfalso
      have h2 : 2 ≤ fsW e := by cases e with
        | file o => simp [fsW]
        | bad => simp [fsW]
        | link t => simp [fsW]
        | dir o => cases o <;> simp [fsW]
      simp [listW] at hW
      omega
  | succ n ih =>
    intro l hW p m j hmj
    match l with
    | [] => simp [wSpecE, levUncachedE]
    | (nm, .file none) :: r =>
      have hr : listW r ≤ n := by simp [listW, fsW] at hW; omega
      simpa [wSpecE] using ih r hr p m j hmj
    | (nm, .file (some meta)) :: r =>
      have hr : listW r ≤ n := by simp [listW, fsW] at hW; omega
      simpa [wSpecE, levUncachedE] using ih r hr p m j hmj
    | (nm, .bad) :: r =>
      have hr : listW r ≤ n := by simp [listW, fsW] at hW; omega
      simpa [wSpecE] using ih r hr p m j hmj
    | (nm, .link t) :: r =>
      have hr : listW r ≤ n := by simp [listW, fsW] at hW; omega
      simpa [wSpecE] using ih r hr p m j hmj
    | (nm, .dir none) :: r =>
      have hr : listW r ≤ n := by simp [listW, fsW] at hW; omega
      simp only [wSpecE, levUncachedE, Bool.and_eq_true]
      refine ⟨?_, ih r hr p m j hmj⟩
      cases m with
      | zero => cases j <;> simp [levUncachedN]
      | succ m' =>
        have hm0 : ¬ (m'+1 = 0) := by omega
        simp only [hm0, if_false]
        cases j with
        | zero => omega
        | succ j' => simp [levUncachedN]
    | (nm, .dir (some sl)) :: r =>
      have hr : listW r ≤ n := by simp [listW, fsW] at hW; omega
      have hsl : listW sl ≤ n := by simp [listW, fsW] at hW; omega
      simp only [wSpecE, levUncachedE, Bool.and_eq_true]
      refine ⟨?_, ih r hr p m j hmj⟩
      cases m with
      | zero => cases j <;> simp [levUncachedN]
      | succ m' =>
        have hm0 : ¬ (m'+1 = 0) := by omega
        simp only [hm0, if_false]
        cases j with
        | zero => omega
        | succ j' =>
          simp only [levUncachedN, Nat.add_sub_cancel]
          exact ih sl hsl (childPath p nm) m' j' (by omega)

/-- The accumulator form of `collect` appends the spec-side flattening. -/
theorem collectE_eq : ∀ (es : List EzEntry) (acc : List EzFile),
    collectE es acc = acc ++ sFlattenE es := by
  suffices H : ∀ (n : Nat) (es : List EzEntry), sizeOf es ≤ n → ∀ acc,
      collectE es acc = acc ++ sFlattenE es by
    exact fun es acc => H (sizeOf es) es le_rfl acc
  intro n
  induction n with
  | zero =>
    intro es hs acc
    exfalso
    cases es <;> simp at hs
  | succ n ih =>
    intro es hs acc
    match es with
    | [] => simp [collectE, sFlattenE]
    | .file f :: r =>
      have hr : sizeOf r ≤ n := by
        simp at hs; omega
      simp [collectE, sFlattenE, ih r hr]
    | .dir d :: r =>
      have hr : sizeOf r ≤ n := by
        simp at hs; omega
      have hd : collectN d acc = acc ++ sFlattenN d := by
        obtain ⟨p, ls, e⟩ := d
        cases e with
        | none => simp [collectN, sFlattenN]
        | some es' =>
          have hes : sizeOf es' ≤ n := by
            simp at hs; omega
          simp [collectN, sFlattenN, ih es' hes]
      simp [collectE, sFlattenE, ih r hr, hd, List.append_assoc]

/-- The code's `EzDir::flatten` agrees with the spec-side flattening. -/
theorem flatten_eq (d : EzDir) : EzDir.flatten d = sFlattenN d := by
  obtain ⟨p, ls, e⟩ := d
  cases e with
  | none => simp [EzDir.flatten, collectN, sFlattenN]
  | some es => simp [EzDir.flatten, collectN, sFlattenN, collectE_eq]

/-- Flattening the expected walk result filled `m` levels below collects
exactly the openable files within `m + 1` levels. -/
theorem sFlattenE_wSpecE : ∀ (l : List (String × Fs)) (p : String) (m : Nat),
    sFlattenE (wSpecE p l m) = reachB p l (m+1) := by
  suffices H : ∀ (n : Nat) (l : List (String × Fs)), listW l ≤ n → ∀ (p : String) (m : Nat),
      sFlattenE (wSpecE p l m) = reachB p l (m+1) by
    exact fun l p m => H (listW l) l le_rfl p m
  intro n
  induction n with
  | zero =>
    intro l hW p m
    match l with
    | [] => simp [wSpecE, sFlattenE, reachB]
    | (nm, e) :: r =>
      exfalso
      have h2 : 2 ≤ fsW e := by cases e with
        | file o => simp [fsW]
        | bad => simp [fsW]
        | link t => simp [fsW]
        | dir o => cases o <;> simp [fsW]
      simp [listW] at hW
      omega
  | succ n ih =>
    intro l hW p m
    match l with
    | [] => simp [wSpecE, sFlattenE, reachB]
    | (nm, .file none) :: r =>
      have hr : listW r ≤ n := by simp [listW, fsW] at hW; omega
      simpa [wSpecE, reachB] using ih r hr p m
    | (nm, .file (some meta)) :: r =>
      have hr : listW r ≤ n := by simp [listW, fsW] at hW; omega
      simpa [wSpecE, sFlattenE, reachB] using ih r hr p m
    | (nm, .bad) :: r =>
      have hr : listW r ≤ n := by simp [listW, fsW] at hW; omega
      simpa [wSpecE, reachB] using ih r hr p m
    | (nm, .link t) :: r =>
      have hr : listW r ≤ n := by simp [listW, fsW] at hW; omega
      simpa [wSpecE, reachB] using ih r hr p m
    | (nm, .dir none) :: r =>
      have hr : listW r ≤ n := by simp [listW, fsW] at hW; omega
      cases m with
      | zero => simp [wSpecE, sFlattenE, sFlattenN, reachB, ih r hr]
      | succ m' => simp [wSpecE, sFlattenE, sFlattenN, reachB, ih r hr]
    | (nm, .dir (some sl)) :: r =>
      have hr : listW r ≤ n := by simp [listW, fsW] at hW; omega
      have hsl : listW sl ≤ n := by simp [listW, fsW] at hW; omega
      cases m with
      | zero =>
        simp [wSpecE, sFlattenE, sFlattenN, reachB, ih r hr]
      | succ m' =>
        have h1 : (1:Nat) < m' + 1 + 1 := by omega
        simp only [wSpecE, Nat.succ_ne_zero, if_false, sFlattenE, sFlattenN, reachB, h1, if_true,
          Nat.add_sub_cancel]
        try rw [ih sl hsl (childPath p nm) m']
        try rw [ih r hr p (m'+1)]
        try simp

/-- Every listing of a chain of directories is present. -/
theorem okToL_chainL : ∀ (n m : Nat), okToL (chainL n) m = true := by
  intro n
  induction n with
  | zero => intro m; simp [chainL, okToL]
  | succ n ih =>
    intro m
    by_cases h : 1 < m <;> simp [chainL, okToL, h, ih]

/-- In the expected walk result of a chain longer than the fill budget, the
directory at level `m + 1` (the first level past the budget; `levCachedE`
counts entry-list levels, so index `m`) is not cached. -/
theorem chainL_notCached : ∀ (m n : Nat) (p : String), m < n →
    levCachedE (wSpecE p (chainL n) m) m = false := by
  intro m
  induction m with
  | zero =>
    intro n p hn
    match n, hn with
    | n'+1, _ =>
      simp [chainL, wSpecE, levCachedE, levCachedN]
  | succ m' ih =>
    intro n p hn
    match n, hn with
    | n'+1, _ =>
      have h0 : ¬ (m' + 1 = 0) := by omega
      simp only [chainL, wSpecE, h0, if_false, levCachedE, levCachedN, Nat.add_sub_cancel]
      rw [ih n' (childPath p "c") (by omega)]
      simp

/-- Every listing of a file-terminated chain is present. -/
theorem okToL_fchainL : ∀ (n m : Nat), okToL (fchainL n) m = true := by
  intro n
  induction n with
  | zero => intro m; simp [fchainL, okToL]
  | succ n ih =>
    intro m
    by_cases h : 1 < m <;> simp [fchainL, okToL, h, ih]

/-- A reach bounded by `k ≤ n` levels misses the file at the bottom of a
file-terminated chain of length `n` (the file sits at level `n + 1`). -/
theorem reachB_fchainL : ∀ (n k : Nat) (p : String), 1 ≤ k → k ≤ n →
    reachB p (fchainL n) k = [] := by
  intro n
  induction n with
  | zero => intro k p h1 h2; omega
  | succ n ih =>
    intro k p h1 h2
    by_cases hk : 1 < k
    · simp only [fchainL, reachB, hk, if_true]
      rw [ih (k-1) (childPath p "c") (by omega) (by omega)]
      simp [reachB]
    · have : k = 1 := by omega
      subst this
      simp [fchainL, reachB]

/-- The file-terminated chain holds exactly one transitively reachable file. -/
theorem reachU_fchainL : ∀ (n : Nat) (p : String), (reachU p (fchainL n)).length = 1 := by
  intro n
  induction n with
  | zero => intro p; simp [fchainL, reachU]
  | succ n ih => intro p; simp [fchainL, reachU, ih]

/-- Pruning symlink targets does not change the termination weight. -/
theorem listW_pruneL : ∀ (l : List (String × Fs)), listW (pruneL l) = listW l := by
  suffices H : ∀ (n : Nat) (l : List (String × Fs)), listW l ≤ n → listW (pruneL l) = listW l by
    exact fun l => H (listW l) l le_rfl
  intro n
  induction n with
  | zero =>
    intro l hW
    match l with
    | [] => simp [pruneL]
    | (nm, e) :: r =>
      exfalso
      have h2 : 2 ≤ fsW e := by cases e with
        | file o => simp [fsW]
        | bad => simp [fsW]
        | link t => simp [fsW]
        | dir o => cases o <;> simp [fsW]
      simp [listW] at hW
      omega
  | succ n ih =>
    intro l hW
    match l with
    | [] => simp [pruneL]
    | (nm, .file o) :: r =>
      have hr : listW r ≤ n := by simp [listW, fsW] at hW; omega
      simp [pruneL, pruneF, listW, fsW, ih r hr]
    | (nm, .bad) :: r =>
      have hr : listW r ≤ n := by simp [listW, fsW] at hW; omega
      simp [pruneL, pruneF, listW, fsW, ih r hr]
    | (nm, .link t) :: r =>
      have hr : listW r ≤ n := by simp [listW, fsW] at hW; omega
      simp [pruneL, pruneF, listW, fsW, ih r hr]
    | (nm, .dir none) :: r =>
      have hr : listW r ≤ n := by simp [listW, fsW] at hW; omega
      simp [pruneL, pruneF, listW, fsW, ih r hr]
    | (nm, .dir (some sl)) :: r =>
      have hr : listW r ≤ n := by simp [listW, fsW] at hW; omega
      have hsl : listW sl ≤ n := by simp [listW, fsW] at hW; omega
      simp [pruneL, pruneF, listW, fsW, ih r hr, ih sl hsl]

/-- Pruning symlink targets does not change which listings a walk needs. -/
theorem okToL_pruneL : ∀ (l : List (String × Fs)) (m : Nat), okToL (pruneL l) m = okToL l m := by
  suffices H : ∀ (n : Nat) (l : List (String × Fs)), listW l ≤ n → ∀ m, okToL (pruneL l) m = okToL l m by
    exact fun l m => H (listW l) l le_rfl m
  intro n
  induction n with
  | zero =>
    intro l hW m
    match l with
    | [] => simp [pruneL]
    | (nm, e) :: r =>
      exfalso
      have h2 : 2 ≤ fsW e := by cases e with
        | file o => simp [fsW]
        | bad => simp [fsW]
        | link t => simp [fsW]
        | dir o => cases o <;> simp [fsW]
      simp [listW] at hW
      omega
  | succ n ih =>
    intro l hW m
    match l with
    | [] => simp [pruneL]
    | (nm, .file o) :: r =>
      have hr : listW r ≤ n := by simp [listW, fsW] at hW; omega
      simp [pruneL, pruneF, okToL, ih r hr]
    | (nm, .bad) :: r =>
      have hr : listW r ≤ n := by simp [listW, fsW] at hW; omega
      simp [pruneL, pruneF, okToL, ih r hr]
    | (nm, .link t) :: r =>
      have hr : listW r ≤ n := by simp [listW, fsW] at hW; omega
      simp [pruneL, pruneF, okToL, ih r hr]
    | (nm, .dir none) :: r =>
      simp [pruneL, pruneF, okToL]
    | (nm, .dir (some sl)) :: r =>
      have hr : listW r ≤ n := by simp [listW, fsW] at hW; omega
      have hsl : listW sl ≤ n := by simp [listW, fsW] at hW; omega
      simp [pruneL, pruneF, okToL, ih r hr, ih sl hsl]

/-- Pruning symlink targets does not change the reachable files. -/
theorem reachB_pruneL : ∀ (l : List (String × Fs)) (p : String) (k : Nat),
    reachB p (pruneL l) k = reachB p l k := by
  suffices H : ∀ (n : Nat) (l : List (String × Fs)), listW l ≤ n → ∀ p k,
      reachB p (pruneL l) k = reachB p l k by
    exact fun l p k => H (listW l) l le_rfl p k
  intro n
  induction n with
  | zero =>
    intro l hW p k
    match l with
    | [] => simp [pruneL]
    | (nm, e) :: r =>
      exfalso
      have h2 : 2 ≤ fsW e := by cases e with
        | file o => simp [fsW]
        | bad => simp [fsW]
        | link t => simp [fsW]
        | dir o => cases o <;> simp [fsW]
      simp [listW] at hW
      omega
  | succ n ih =>
    intro l hW p k
    match l with
    | [] => simp [pruneL]
    | (nm, .file none) :: r =>
      have hr : listW r ≤ n := by simp [listW, fsW] at hW; omega
      simp [pruneL, pruneF, reachB, ih r hr]
    | (nm, .file (some meta)) :: r =>
      have hr : listW r ≤ n := by simp [listW, fsW] at hW; omega
      simp [pruneL, pruneF, reachB, ih r hr]
    | (nm, .bad) :: r =>
      have hr : listW r ≤ n := by simp [listW, fsW] at hW; omega
      simp [pruneL, pruneF, reachB, ih r hr]
    | (nm, .link t) :: r =>
      have hr : listW r ≤ n := by simp [listW, fsW] at hW; omega
      simp [pruneL, pruneF, reachB, ih r hr]
    | (nm, .dir none) :: r =>
      have hr : listW r ≤ n := by simp [listW, fsW] at hW; omega
      simp [pruneL, pruneF, reachB, ih r hr]
    | (nm, .dir (some sl)) :: r =>
      have hr : listW r ≤ n := by simp [listW, fsW] at hW; omega
      have hsl : listW sl ≤ n := by simp [listW, fsW] at hW; omega
      simp [pruneL, pruneF, reachB, ih r hr, ih sl hsl]

/-- With fuel exceeding the entry-list weight, the fuel-indexed fill agrees
with (and hence terminates as) `fillE`. -/
theorem fillFuelE_spec : ∀ (fuel : Nat) (es : List EzEntry) (c m : Nat), entriesW es < fuel →
    fillFuelE fuel es c m = some (fillE es c m) := by
  intro fuel
  induction fuel with
  | zero =>
    intro es c m h
    exfalso
    omega
  | succ n ih =>
    intro es c m h
    match es with
    | [] => simp [fillFuelE, fillE]
    | .file f :: r =>
      have hr : entriesW r < n := by simp [entriesW, entryW] at h; omega
      rw [fillE]
      simp only [fillFuelE]
      rw [ih r c m hr]
      cases hfe : fillE r c m <;> simp
    | .dir d :: r =>
      have hr : entriesW r < n := by simp [entriesW] at h; omega
      rw [fillE]
      simp only [fillFuelE]
      cases hc : EzDir.cache d with
      | none => simp
      | some d1 =>
        obtain ⟨p1, ls1, e1⟩ := d1
        cases e1 with
        | none =>
          rw [ih r c m hr]
          cases hfe : fillE r c m <;> simp
        | some es1 =>
          have hes1 : entriesW es1 < n := by
            have := cache_weight hc
            simp [entriesW] at h
            omega
          by_cases hcm : c < m - 1
          · simp only [hcm, if_true]
            rw [ih es1 (c+1) m hes1, ih r c m hr]
            cases hf1 : fillE es1 (c+1) m <;> cases hfe : fillE r c m <;> simp
          · simp only [hcm, if_false]
            rw [ih r c m hr]
            cases hfe : fillE r c m <;> simp

/-- With fuel exceeding the listing weight (a bound that, by
`listW_pruneL`, does not depend on any symlink target), the fuel-indexed
walk finishes and agrees with `EzDir.walk`. -/
theorem walkFuel_spec (fuel : Nat) (p : String) (l : List (String × Fs)) (e : Option (List EzEntry)) (depth : Nat)
    (h : listW l < fuel) :
    walkFuel fuel (.mk p (some l) e) depth = some (EzDir.walk (.mk p (some l) e) depth) := by
  have hs : entriesW (scanL p l) < fuel := lt_of_le_of_lt (scanL_weight p l) h
  unfold walkFuel EzDir.walk
  simp only [EzDir.cache]
  by_cases hd : depth > 0
  · simp only [hd, if_true]
    rw [fillFuelE_spec fuel (scanL p l) 0 depth hs]
    simp only [EzDir.fill]
    cases hfe : fillE (scanL p l) 0 depth <;> simp
  · simp only [hd, if_false]
    rw [fillFuelE_spec fuel (scanL p l) 0 USIZE_MAX hs]
    simp only [EzDir.fill]
    cases hfe : fillE (scanL p l) 0 USIZE_MAX <;> simp

/-- The entry paths of the expected walk result at any budget are the
kept children of the listing: the top level is exactly a fresh scan. -/
theorem entryPaths_wSpecE : ∀ (l : List (String × Fs)) (p : String) (m : Nat),
    entryPaths (wSpecE p l m) = keptPaths p l := by
  intro l
  induction l with
  | nil => intro p m; simp [wSpecE, entryPaths, keptPaths]
  | cons hd r ih =>
    intro p m
    obtain ⟨nm, e⟩ := hd
    cases e with
    | file o => cases o <;> simp [wSpecE, entryPaths, keptPaths, ih]
    | bad => simp [wSpecE, entryPaths, keptPaths, ih]
    | link t => simp [wSpecE, entryPaths, keptPaths, ih]
    | dir o =>
      cases o with
      | none =>
        by_cases hm : m = 0 <;> simp [wSpecE, entryPaths, keptPaths, ih, hm, EzDir.path]
      | some sl =>
        by_cases hm : m = 0 <;> simp [wSpecE, entryPaths, keptPaths, ih, hm, EzDir.path]

/-- The entry paths of a fresh scan are the kept children of the listing. -/
theorem entryPaths_scanL (p : String) (l : List (String × Fs)) :
    entryPaths (scanL p l) = keptPaths p l := by
  rw [← wSpecE_zero, entryPaths_wSpecE]

/-- Every directory entry of a fresh scan is unscanned
(`EzDir::new(path, false)`). -/
theorem dirsUnscanned_scanL (p : String) (l : List (String × Fs)) :
    dirsUnscanned (scanL p l) = true := by
  induction l with
  | nil => simp [scanL, dirsUnscanned]
  | cons hd r ih =>
    obtain ⟨nm, e⟩ := hd
    cases e with
    | file o => cases o <;> simpa [scanL, classify, List.filterMap_cons, dirsUnscanned] using ih
    | bad => simpa [scanL, classify, List.filterMap_cons, dirsUnscanned] using ih
    | link t => simpa [scanL, classify, List.filterMap_cons, dirsUnscanned] using ih
    | dir o => simpa [scanL, classify, List.filterMap_cons, dirsUnscanned] using ih

/-! ### Claims -/

/-- Claim C1, corrected. Per-entry failures (unclassifiable children,
children whose open fails) never make `cache` or `walk` fail: `cache`
succeeds on any readable listing whatever the children are, and `walk`
succeeds whenever every listing it must read is present. However — the
correction — when listing the children of the node itself (or of a
subdirectory the walk scans) fails as a whole, the `unwrap` in
`EzDir::cache` panics, and `walk` panics with it. -/
theorem claimC1 :
    (∀ (p : String) (l : List (String × Fs)) (e : Option (List EzEntry)),
       EzDir.cache (.mk p (some l) e) = some (.mk p (some l) (some (scanL p l)))) ∧
    (∀ (p : String) (l : List (String × Fs)) (e : Option (List EzEntry)) (depth : Nat),
       okToL l (if 0 < depth then depth else USIZE_MAX) = true →
       (EzDir.walk (.mk p (some l) e) depth).isSome = true) ∧
    (∀ (p : String) (e : Option (List EzEntry)), EzDir.cache (.mk p none e) = none) ∧
    (∀ (p : String) (e : Option (List EzEntry)) (depth : Nat),
       EzDir.walk (.mk p none e) depth = none) := by
  refine ⟨fun p l e => rfl, ?_, fun p e => rfl, fun p e depth => walk_noListing p e depth⟩
  intro p l e depth hok
  rw [walk_eq, if_pos hok]
  rfl

/-- Witness for claim C1 at a concrete tree and depth. -/
theorem claimC1_witness :
    (EzDir.walk (.mk "d" (some [("a", Fs.dir (some []))]) none) 1).isSome = true :=
  claimC1.2.1 "d" [("a", Fs.dir (some []))] none 1 (by simp [okToL])

/-- Counterexample to claim C1 as stated: on a directory whose children
cannot be listed (`fs::read_dir` fails), `cache()` — and therefore
`walk()` — panics instead of dropping entries. -/
theorem claimC1_cex :
    EzDir.cache (.mk "d" none none) = none ∧
    EzDir.walk (.mk "d" none none) 0 = none :=
  ⟨rfl, walk_noListing "d" none 0⟩

/-- Claim C2, corrected. `walk(depth)` re-scans the node's own top level
unconditionally (the result does not depend on the previous `entries`, and
the resulting top-level entries are exactly a fresh scan of the listing);
for `depth = n > 0` a successful walk caches every directory down to level
`n` and leaves every directory at level `n + 1` and deeper unscanned. The
correction concerns `depth = 0`: it is implemented as
`fill(self, 0, usize::MAX)`, so a successful `walk(0)` caches directories
down to level `usize::MAX = 2^64 - 1` — every level of any tree shallower
than `2^64` — but leaves a directory at level `2^64` unscanned (see the
counterexample). -/
theorem claimC2 :
    (∀ (p : String) (l : List (String × Fs)) (e e' : Option (List EzEntry)) (depth : Nat),
       EzDir.walk (.mk p (some l) e) depth = EzDir.walk (.mk p (some l) e') depth) ∧
    (∀ (p : String) (l : List (String × Fs)) (e : Option (List EzEntry)) (depth : Nat) (r : EzDir),
       EzDir.walk (.mk p (some l) e) depth = some r →
       (EzDir.entries r).map entryPaths = some (keptPaths p l)) ∧
    (∀ (p : String) (l : List (String × Fs)) (e : Option (List EzEntry)) (depth : Nat) (r : EzDir),
       0 < depth → EzDir.walk (.mk p (some l) e) depth = some r →
       (∀ j, j ≤ depth → levCachedN r j = true) ∧
       (∀ j, depth < j → levUncachedN r j = true)) ∧
    (∀ (p : String) (l : List (String × Fs)) (e : Option (List EzEntry)) (r : EzDir),
       EzDir.walk (.mk p (some l) e) 0 = some r →
       (∀ j, j ≤ USIZE_MAX → levCachedN r j = true) ∧
       (∀ j, USIZE_MAX < j → levUncachedN r j = true)) := by
  refine ⟨?_, ?_, ?_, ?_⟩
  · intro p l e e' depth
    rw [walk_eq, walk_eq]
  · intro p l e depth r hw
    rw [walk_eq] at hw
    by_cases hok : okToL l (if 0 < depth then depth else USIZE_MAX)
    · rw [if_pos hok] at hw
      injection hw with hw'
      subst hw'
      simp [EzDir.entries, entryPaths_wSpecE]
    · rw [if_neg hok] at hw
      cases hw
  · intro p l e depth r hd hw
    rw [walk_eq] at hw
    have hdd : (if 0 < depth then depth else USIZE_MAX) = depth := by simp [hd]
    rw [hdd] at hw
    by_cases hok : okToL l depth
    · rw [if_pos hok] at hw
      injection hw with hw'
      subst hw'
      constructor
      · intro j hj
        cases j with
        | zero => simp [levCachedN]
        | succ j' =>
          simp only [levCachedN]
          exact wSpecE_levCached l p depth j' (by omega) hok
      · intro j hj
        cases j with
        | zero => omega
        | succ j' =>
          simp only [levUncachedN]
          exact wSpecE_levUncached l p depth j' (by omega)
    · rw [if_neg hok] at hw
      cases hw
  · intro p l e r hw
    rw [walk_eq] at hw
    have hdd : (if (0:Nat) < 0 then (0:Nat) else USIZE_MAX) = USIZE_MAX := by simp
    rw [hdd] at hw
    by_cases hok : okToL l USIZE_MAX
    · rw [if_pos hok] at hw
      injection hw with hw'
      subst hw'
      constructor
      · intro j hj
        cases j with
        | zero => simp [levCachedN]
        | succ j' =>
          simp only [levCachedN]
          exact wSpecE_levCached l p USIZE_MAX j' (by omega) hok
      · intro j hj
        cases j with
        | zero => omega
        | succ j' =>
          simp only [levUncachedN]
          exact wSpecE_levUncached l p USIZE_MAX j' (by omega)
    · rw [if_neg hok] at hw
      cases hw

/-- Witness for claim C2: a three-level tree walked with depth 1 has level
1 cached and level 2 unscanned. -/
theorem claimC2_witness :
    EzDir.walk (.mk "r" (some [("a", Fs.dir (some [("b", Fs.dir (some []))]))]) none) 1 =
      some (.mk "r" (some [("a", Fs.dir (some [("b", Fs.dir (some []))]))])
        (some [.dir (.mk "r/a" (some [("b", Fs.dir (some []))])
          (some [.dir (.mk "r/a/b" (some []) none)]))])) ∧
    levCachedN (.mk "r" (some [("a", Fs.dir (some [("b", Fs.dir (some []))]))])
        (some [.dir (.mk "r/a" (some [("b", Fs.dir (some []))])
          (some [.dir (.mk "r/a/b" (some []) none)]))])) 1 = true ∧
    levUncachedN (.mk "r" (some [("a", Fs.dir (some [("b", Fs.dir (some []))]))])
        (some [.dir (.mk "r/a" (some [("b", Fs.dir (some []))])
          (some [.dir (.mk "r/a/b" (some []) none)]))])) 2 = true := by
  have hw : EzDir.walk (.mk "r" (some [("a", Fs.dir (some [("b", Fs.dir (some []))]))]) none) 1 =
      some (.mk "r" (some [("a", Fs.dir (some [("b", Fs.dir (some []))]))])
        (some [.dir (.mk "r/a" (some [("b", Fs.dir (some []))])
          (some [.dir (.mk "r/a/b" (some []) none)]))])) := by
    simp [EzDir.walk, EzDir.cache, EzDir.fill, fillE, scanL, classify, childPath]
  refine ⟨hw, ?_, ?_⟩
  · exact ((claimC2.2.2.1 "r" [("a", Fs.dir (some [("b", Fs.dir (some []))]))] none 1 _
      (by decide) hw).1 1 (by decide))
  · exact ((claimC2.2.2.1 "r" [("a", Fs.dir (some [("b", Fs.dir (some []))]))] none 1 _
      (by decide) hw).2 2 (by decide))

/-- Running `walk(0)` on a chain of nested directories always succeeds, with the
expected tree filled to the `usize::MAX` budget. -/
theorem walk0_chainL (n : Nat) :
    EzDir.walk (.mk "r" (some (chainL n)) none) 0 =
      some (.mk "r" (some (chainL n)) (some (wSpecE "r" (chainL n) USIZE_MAX))) := by
  rw [walk_eq]
  simp [okToL_chainL]

/-- In the result of `walk(0)` on a chain longer than `usize::MAX`, the
directory at level `usize::MAX + 1` is not cached. -/
theorem chainL_lev_false (n : Nat) (hn : USIZE_MAX < n) :
    levCachedN (.mk "r" (some (chainL n)) (some (wSpecE "r" (chainL n) USIZE_MAX))) (USIZE_MAX + 1) = false := by
  simp only [levCachedN]
  exact chainL_notCached USIZE_MAX n "r" hn

/-- Counterexample to claim C2 as stated: on a chain of `2^64` nested
directories, `walk(0)` succeeds but the directory at level
`usize::MAX + 1 = 2^64` — reachable from the node — is left unscanned,
because the depth-0 case runs `fill` with bound `usize::MAX = 2^64 - 1`. -/
theorem claimC2_cex :
    EzDir.walk (.mk "r" (some (chainL (2^64))) none) 0 =
      some (.mk "r" (some (chainL (2^64))) (some (wSpecE "r" (chainL (2^64)) USIZE_MAX))) ∧
    levCachedN (.mk "r" (some (chainL (2^64))) (some (wSpecE "r" (chainL (2^64)) USIZE_MAX))) (USIZE_MAX + 1) = false ∧
    USIZE_MAX + 1 = 2^64 :=
  ⟨walk0_chainL (2^64), chainL_lev_false (2^64) (by norm_num [USIZE_MAX]), by norm_num [USIZE_MAX]⟩

/-- Claim C3, confirmed. A scan on a readable listing replaces `entries`
wholesale (the result is independent of the previous entries), keeps
exactly one entry per child classified as an openable regular file or a
directory, in platform enumeration order (same path list), and stores
every directory child unscanned (`EzDir::new(_, false)`). -/
theorem claimC3 :
    (∀ (p : String) (l : List (String × Fs)) (e : Option (List EzEntry)),
       EzDir.cache (.mk p (some l) e) = some (.mk p (some l) (some (scanL p l)))) ∧
    (∀ (p : String) (l : List (String × Fs)), entryPaths (scanL p l) = keptPaths p l) ∧
    (∀ (p : String) (l : List (String × Fs)), dirsUnscanned (scanL p l) = true) :=
  ⟨fun p l e => rfl, entryPaths_scanL, dirsUnscanned_scanL⟩

/-- Claim C4, corrected. `EzDir::new` fails with the "not a directory"
error exactly on non-directory paths; with eager-cache `false` it always
succeeds (unscanned) on a directory; with eager-cache `true` it succeeds
(scanned once) whenever the children can be listed; and on success
`is_cached()` equals the requested flag. The correction: on a directory
path whose children cannot be listed, `new(path, true)` does *not*
succeed — `fs::read_dir(path)?` propagates the I/O error (which is not the
"not a directory" error). -/
theorem claimC4 :
    (∀ (p : String) (c : Bool) (tgt : Fs), Fs.isDir tgt = false →
       EzDir.new p tgt c = .error .notADirectory) ∧
    (∀ (p : String) (c : Bool) (tgt : Fs), EzDir.new p tgt c = .error .notADirectory →
       Fs.isDir tgt = false) ∧
    (∀ (p : String) (ols : Option (List (String × Fs))),
       EzDir.new p (.dir ols) false = .ok (.mk p ols none)) ∧
    (∀ (p : String) (l : List (String × Fs)),
       EzDir.new p (.dir (some l)) true = .ok (.mk p (some l) (some (scanL p l)))) ∧
    (∀ (p : String) (c : Bool) (tgt : Fs) (n : EzDir), EzDir.new p tgt c = .ok n →
       EzDir.isCached n = c) := by
  refine ⟨?_, ?_, fun p ols => rfl, fun p l => rfl, ?_⟩
  · intro p c tgt h
    cases tgt with
    | file o => rfl
    | bad => rfl
    | link t => rfl
    | dir ols => simp [Fs.isDir] at h
  · intro p c tgt h
    cases tgt with
    | file o => rfl
    | bad => rfl
    | link t => rfl
    | dir ols =>
      exfalso
      cases c with
      | false => simp [EzDir.new] at h
      | true =>
        cases ols with
        | none => simp [EzDir.new] at h
        | some l => simp [EzDir.new] at h
  · intro p c tgt n h
    cases tgt with
    | file o => simp [EzDir.new] at h
    | bad => simp [EzDir.new] at h
    | link t => simp [EzDir.new] at h
    | dir ols =>
      cases c with
      | false =>
        simp [EzDir.new] at h
        subst h
        simp [EzDir.isCached, EzDir.entries]
      | true =>
        cases ols with
        | none => simp [EzDir.new] at h
        | some l =>
          simp [EzDir.new] at h
          subst h
          simp [EzDir.isCached, EzDir.entries]

/-- Witness for claim C4 at concrete inputs: a regular-file path is
rejected as "not a directory"; an eagerly cached directory node reports
`is_cached() = true`. -/
theorem claimC4_witness :
    EzDir.new "d" (.file none) true = .error .notADirectory ∧
    EzDir.isCached (.mk "d" (some []) (some [])) = true :=
  ⟨claimC4.1 "d" true (.file none) rfl,
   claimC4.2.2.2.2 "d" true (.dir (some [])) (.mk "d" (some []) (some [])) rfl⟩

/-- Counterexample to claim C4 as stated: a path that *is* a directory,
but whose children cannot be listed, makes `new(path, true)` fail (with
the propagated listing error, not the "not a directory" error) — so
construction on a directory path does not always succeed. -/
theorem claimC4_cex :
    EzDir.new "d" (.dir none) true = .error .listFail ∧
    Fs.isDir (.dir none) = true :=
  ⟨rfl, rfl⟩

/-- Claim C5, confirmed. Consuming `flatten()` produces exactly the
pre-order, depth-first linearization described by the spec (`sFlattenN`:
entry order at each level, a directory's files before later siblings):
an unscanned node — including a never-scanned root — contributes zero
files and causes no error, and a scanned node contributes its entries'
files in order. -/
theorem claimC5 :
    (∀ (d : EzDir), EzDir.flatten d = sFlattenN d) ∧
    (∀ (p : String) (ls : Option (List (String × Fs))), EzDir.flatten (.mk p ls none) = []) ∧
    (∀ (p : String) (ls : Option (List (String × Fs))) (es : List EzEntry),
       EzDir.flatten (.mk p ls (some es)) = sFlattenE es) := by
  refine ⟨flatten_eq, fun p ls => rfl, fun p ls es => ?_⟩
  rw [flatten_eq]
  simp [sFlattenN]

/-- Claim C6, corrected. `flatten_all()` is exactly `walk(0)` followed by
`flatten()` (panics of the walk propagate), regardless of the prior cache
state; when the walk succeeds, the result is every openable file reachable
through listable directories within `usize::MAX + 1 = 2^64` levels. The
correction: because `walk(0)` fills only to the `usize::MAX` bound (claim
C2), a file deeper than `2^64` levels is *not* collected even though it is
transitively reachable — see the counterexample. -/
theorem claimC6 :
    (∀ (d : EzDir), EzDir.flattenAll d = (EzDir.walk d 0).map EzDir.flatten) ∧
    (∀ (p : String) (l : List (String × Fs)) (e : Option (List EzEntry)) (r : EzDir),
       EzDir.walk (.mk p (some l) e) 0 = some r →
       EzDir.flatten r = reachB p l (USIZE_MAX + 1)) := by
  refine ⟨fun d => rfl, ?_⟩
  intro p l e r hw
  rw [walk_eq] at hw
  have hM : (if (0:Nat) < 0 then (0:Nat) else USIZE_MAX) = USIZE_MAX := by norm_num
  rw [hM] at hw
  by_cases hok : okToL l USIZE_MAX
  · rw [if_pos hok] at hw
    injection hw with hw'
    subst hw'
    rw [flatten_eq]
    simp only [sFlattenN]
    rw [sFlattenE_wSpecE]
  · rw [if_neg hok] at hw
    cases hw

/-- Witness for claim C6 on a concrete two-level tree. -/
theorem claimC6_witness :
    EzDir.walk (.mk "r" (some [("a", Fs.dir (some [("f", Fs.file (some 3))])), ("g", Fs.file (some 4))]) none) 0 =
      some (.mk "r" (some [("a", Fs.dir (some [("f", Fs.file (some 3))])), ("g", Fs.file (some 4))])
        (some [.dir (.mk "r/a" (some [("f", Fs.file (some 3))]) (some [.file ⟨"r/a/f", .read, 0, 3⟩])),
               .file ⟨"r/g", .read, 0, 4⟩])) ∧
    EzDir.flatten (.mk "r" (some [("a", Fs.dir (some [("f", Fs.file (some 3))])), ("g", Fs.file (some 4))])
        (some [.dir (.mk "r/a" (some [("f", Fs.file (some 3))]) (some [.file ⟨"r/a/f", .read, 0, 3⟩])),
               .file ⟨"r/g", .read, 0, 4⟩])) =
      reachB "r" [("a", Fs.dir (some [("f", Fs.file (some 3))])), ("g", Fs.file (some 4))] (USIZE_MAX + 1) := by
  have hw : EzDir.walk (.mk "r" (some [("a", Fs.dir (some [("f", Fs.file (some 3))])), ("g", Fs.file (some 4))]) none) 0 =
      some (.mk "r" (some [("a", Fs.dir (some [("f", Fs.file (some 3))])), ("g", Fs.file (some 4))])
        (some [.dir (.mk "r/a" (some [("f", Fs.file (some 3))]) (some [.file ⟨"r/a/f", .read, 0, 3⟩])),
               .file ⟨"r/g", .read, 0, 4⟩])) := by
    simp [EzDir.walk, EzDir.cache, EzDir.fill, fillE, scanL, classify, childPath, USIZE_MAX]
  exact ⟨hw, claimC6.2 "r" [("a", Fs.dir (some [("f", Fs.file (some 3))])), ("g", Fs.file (some 4))] none _ hw⟩

/-- Running `flatten_all` on a file-terminated chain longer than `usize::MAX`
returns no files at all. -/
theorem fchainL_flattenAll (n : Nat) (hn : USIZE_MAX + 1 ≤ n) :
    EzDir.flattenAll (.mk "r" (some (fchainL n)) none) = some [] := by
  show (EzDir.walk (.mk "r" (some (fchainL n)) none) 0).map EzDir.flatten = some []
  rw [walk_eq]
  have hM : (if (0:Nat) < 0 then (0:Nat) else USIZE_MAX) = USIZE_MAX := by norm_num
  rw [hM, okToL_fchainL n USIZE_MAX, if_pos rfl]
  simp only [Option.map]
  rw [flatten_eq]
  simp only [sFlattenN]
  rw [sFlattenE_wSpecE, reachB_fchainL n (USIZE_MAX + 1) "r" (by omega) hn]

/-- Counterexample to claim C6 as stated: on a file-terminated chain of
`2^64` nested directories (the file sits at level `2^64 + 1`),
`flatten_all()` succeeds but returns the empty list, although exactly one
file is transitively reachable from the node. -/
theorem claimC6_cex :
    EzDir.flattenAll (.mk "r" (some (fchainL (2^64))) none) = some [] ∧
    (reachU "r" (fchainL (2^64))).length = 1 :=
  ⟨fchainL_flattenAll (2^64) (by norm_num [USIZE_MAX]), reachU_fchainL (2^64) "r"⟩

/-- Claim C7, confirmed. On an unscanned node, `len()` and `is_empty()`
are `None`, `get(i)`/`get_mut(i)` are `None` for every index, and all
three iteration forms yield the empty sequence; on a scanned node,
`get(i)` is `None` exactly when `i` is out of range of the scanned list. -/
theorem claimC7 :
    (∀ (p : String) (ls : Option (List (String × Fs))), EzDir.len (.mk p ls none) = none) ∧
    (∀ (p : String) (ls : Option (List (String × Fs))), EzDir.isEmpty (.mk p ls none) = none) ∧
    (∀ (p : String) (ls : Option (List (String × Fs))) (i : Nat), EzDir.get (.mk p ls none) i = none) ∧
    (∀ (p : String) (ls : Option (List (String × Fs))) (i : Nat), EzDir.getMut (.mk p ls none) i = none) ∧
    (∀ (p : String) (ls : Option (List (String × Fs))),
       EzDir.iterRef (.mk p ls none) = [] ∧ EzDir.iterMut (.mk p ls none) = [] ∧
       EzDir.intoIter (.mk p ls none) = []) ∧
    (∀ (p : String) (ls : Option (List (String × Fs))) (es : List EzEntry) (i : Nat),
       (EzDir.get (.mk p ls (some es)) i = none ↔ es.length ≤ i)) := by
  refine ⟨fun p ls => rfl, fun p ls => rfl, fun p ls i => rfl, fun p ls i => rfl,
    fun p ls => ⟨rfl, rfl, rfl⟩, ?_⟩
  intro p ls es i
  simp [EzDir.get, List.get?_eq_none]

/-- Claim C8, confirmed. `to_write()`/`to_read()` attempt to reopen the
wrapper's stored path in the target mode regardless of the current mode
(success depends only on the platform's permission at that path, never on
the mode already in effect); on success the handle is replaced (write mode
truncates the content at the path, leaving every other path untouched)
while the `path` and `metadata` fields are unchanged — the metadata
snapshot is never refreshed by a mode switch. -/
theorem claimC8 :
    (∀ (f : EzFile) (fs : FsS),
       (EzFile.toWrite f fs).isSome = (fs f.path).writeOk ∧
       (EzFile.toRead f fs).isSome = (fs f.path).readOk) ∧
    (∀ (f : EzFile) (fs : FsS) (f' : EzFile) (fs' : FsS),
       EzFile.toWrite f fs = some (f', fs') →
       f'.path = f.path ∧ f'.metadata = f.metadata ∧ f'.mode = .write ∧
       (fs' f.path).content = [] ∧ (∀ q, q ≠ f.path → fs' q = fs q)) ∧
    (∀ (f : EzFile) (fs : FsS) (f' : EzFile),
       EzFile.toRead f fs = some f' →
       f'.path = f.path ∧ f'.metadata = f.metadata ∧ f'.mode = .read) := by
  refine ⟨?_, ?_, ?_⟩
  · intro f fs
    constructor
    · by_cases h : (fs f.path).writeOk <;> simp [EzFile.toWrite, h]
    · by_cases h : (fs f.path).readOk <;> simp [EzFile.toRead, h]
  · intro f fs f' fs' h
    by_cases hw : (fs f.path).writeOk
    · simp only [EzFile.toWrite, hw, if_true, Option.some.injEq, Prod.mk.injEq] at h
      obtain ⟨h1, h2⟩ := h
      subst h1
      subst h2
      refine ⟨rfl, rfl, rfl, ?_, ?_⟩
      · simp [setContent]
      · intro q hq
        simp [setContent, hq]
    · simp [EzFile.toWrite, hw] at h
  · intro f fs f' h
    by_cases hr : (fs f.path).readOk
    · simp only [EzFile.toRead, hr, if_true, Option.some.injEq] at h
      subst h
      exact ⟨rfl, rfl, rfl⟩
    · simp [EzFile.toRead, hr] at h

/-- Witness for claim C8: `to_write` on a wrapper already in write mode
with non-empty on-disk content still truncates it, keeping the metadata
snapshot. -/
theorem claimC8_witness :
    EzFile.toWrite ⟨"p", .write, 2, 42⟩ (fun _ => ⟨[9, 9], 7, true, true⟩) =
      some (⟨"p", .write, 0, 42⟩, setContent (fun _ => ⟨[9, 9], 7, true, true⟩) "p" []) ∧
    ((setContent (fun _ => (⟨[9, 9], 7, true, true⟩ : FData)) "p" []) "p").content = [] ∧
    (⟨"p", .write, 0, 42⟩ : EzFile).metadata = 42 := by
  have h : EzFile.toWrite ⟨"p", .write, 2, 42⟩ (fun _ => ⟨[9, 9], 7, true, true⟩) =
      some (⟨"p", .write, 0, 42⟩, setContent (fun _ => ⟨[9, 9], 7, true, true⟩) "p" []) := rfl
  exact ⟨h, (claimC8.2.1 _ _ _ _ h).2.2.2.1, (claimC8.2.1 _ _ _ _ h).2.1.trans rfl⟩

/-- Writing a buffer on a freshly truncated write handle stores exactly
the buffer and advances the cursor to its length. -/
theorem write_fresh (p : String) (meta : Nat) (b : List Nat) (g : FsS) (hg : (g p).content = []) :
    EzFile.write ⟨p, .write, 0, meta⟩ b g = some (⟨p, .write, b.length, meta⟩, setContent g p b, b.length) := by
  simp [EzFile.write, hg]

/-- Claim C9, confirmed. Writing a byte sequence `b` on a wrapper freshly
in write mode (`create`, whose truncation makes the handle's content
empty — `to_write` produces the same state), then switching to read mode
with `to_read()`, then reading to the end, returns exactly `b`. -/
theorem claimC9 : ∀ (fs : FsS) (p : String) (b : List Nat) (f0 : EzFile) (fs1 : FsS)
    (f1 : EzFile) (fs2 : FsS) (k : Nat) (f2 : EzFile),
    EzFile.create p fs = some (f0, fs1) →
    EzFile.write f0 b fs1 = some (f1, fs2, k) →
    EzFile.toRead f1 fs2 = some f2 →
    (EzFile.readToEnd f2 fs2).map Prod.fst = some b := by
  intro fs p b f0 fs1 f1 fs2 k f2 h1 h2 h3
  by_cases hw : (fs p).writeOk
  · simp only [EzFile.create, hw, if_true, Option.some.injEq, Prod.mk.injEq] at h1
    obtain ⟨h10, h11⟩ := h1
    subst h10
    subst h11
    rw [write_fresh p (fs p).meta b (setContent fs p []) (by simp [setContent])] at h2
    simp only [Option.some.injEq, Prod.mk.injEq] at h2
    obtain ⟨h20, h21, h22⟩ := h2
    subst h20
    subst h21
    by_cases hr : (fs p).readOk
    · simp only [EzFile.toRead, setContent] at h3
      simp only [EzFile.readToEnd]
      simp [hr] at h3
      subst h3
      simp [setContent]
    · exfalso
      simp [EzFile.toRead, setContent, hr] at h3
  · simp [EzFile.create, hw] at h1

/-- Witness for claim C9: the bytes `[1, 2, 3]` round-trip through create,
write, `to_read`, read-to-end on a concrete platform state. -/
theorem claimC9_witness :
    (EzFile.readToEnd ⟨"p", .read, 0, 7⟩
        (setContent (setContent (fun _ => ⟨[], 7, true, true⟩) "p" []) "p" [1, 2, 3])).map Prod.fst =
      some [1, 2, 3] :=
  claimC9 (fun _ => ⟨[], 7, true, true⟩) "p" [1, 2, 3] ⟨"p", .write, 0, 7⟩
    (setContent (fun _ => ⟨[], 7, true, true⟩) "p" []) ⟨"p", .write, 3, 7⟩
    (setContent (setContent (fun _ => ⟨[], 7, true, true⟩) "p" []) "p" [1, 2, 3]) 3
    ⟨"p", .read, 0, 7⟩ rfl (by simp [EzFile.write, setContent]) rfl

/-- Claim C10, confirmed. The walk terminates within a number of recursive
calls bounded by the weight of the directory structure alone: with any
fuel above `listW l` the fuel-indexed walk finishes and agrees with
`EzDir.walk`. That bound ignores symlink targets entirely
(`listW (pruneL l) = listW l`), and the walk's outcome — success/panic and
the files subsequently flattened — is unchanged when every symlink target
is replaced, because the classification rejects symlinks rather than
following them. This exclusion is what keeps the traversal over the
finite directory tree and the recursion well-founded. -/
theorem claimC10 :
    (∀ (p : String) (l : List (String × Fs)) (e : Option (List EzEntry)) (depth fuel : Nat),
       listW l < fuel →
       walkFuel fuel (.mk p (some l) e) depth = some (EzDir.walk (.mk p (some l) e) depth)) ∧
    (∀ (l : List (String × Fs)), listW (pruneL l) = listW l) ∧
    (∀ (p : String) (l : List (String × Fs)) (e : Option (List EzEntry)) (depth : Nat),
       (EzDir.walk (.mk p (some (pruneL l)) e) depth).isSome =
         (EzDir.walk (.mk p (some l) e) depth).isSome) ∧
    (∀ (p : String) (l : List (String × Fs)) (e : Option (List EzEntry)) (depth : Nat),
       (EzDir.walk (.mk p (some (pruneL l)) e) depth).map EzDir.flatten =
         (EzDir.walk (.mk p (some l) e) depth).map EzDir.flatten) := by
  refine ⟨fun p l e depth fuel h => walkFuel_spec fuel p l e depth h, listW_pruneL, ?_, ?_⟩
  · intro p l e depth
    rw [walk_eq, walk_eq, okToL_pruneL]
    by_cases hok : okToL l (if 0 < depth then depth else USIZE_MAX) <;> simp [hok]
  · intro p l e depth
    rw [walk_eq, walk_eq, okToL_pruneL]
    by_cases hok : okToL l (if 0 < depth then depth else USIZE_MAX)
    · rw [if_pos hok, if_pos hok]
      simp only [Option.map]
      rw [flatten_eq, flatten_eq]
      simp only [sFlattenN]
      rw [sFlattenE_wSpecE, sFlattenE_wSpecE, reachB_pruneL]
    · rw [if_neg hok, if_neg hok]

/-- Witness for claim C10: on a concrete one-subdirectory tree, fuel 10
(above the weight 2 of the listing) suffices for the fuel-indexed walk to
finish with the walk's result. -/
theorem claimC10_witness :
    walkFuel 10 (.mk "r" (some [("a", Fs.dir (some []))]) none) 1 =
      some (EzDir.walk (.mk "r" (some [("a", Fs.dir (some []))]) none) 1) :=
  claimC10.1 "r" [("a", Fs.dir (some []))] none 1 10 (by simp [listW, fsW])

end EzFs
